import Mathlib

/-!
Verification of the content-resolution and indexing pipeline of a
documentation website.  The TypeScript sources are shallowly embedded:

* `sluggify`, `getDocsTocs`, `getPreviousNext`, `getDocsContentPath`
  from src/lib/markdown.ts;
* `getAllIndexMDXFiles`, `extractHeadings`, `generateSearchIndex`
  from the search-index build script.

Strings are modelled through their character lists; the JavaScript
regular-expression operations used by the sources are embedded as
explicit character-list scans whose semantics follow the ECMAScript
regex semantics (character class membership, greedy runs, multiline
anchors) on the character sets actually reachable here.
-/

/-- Character class of the JavaScript regex escape backslash-s: ASCII
whitespace, the line terminators, NBSP, BOM and the Unicode space
separators.  Line terminators are whitespace in JS. -/
def isJsWhitespace (c : Char) : Bool :=
  c == ' ' || c == '\t' || c == '\n' || c == '\r' ||
  c == '\x0b' || c == '\x0c' || c == '\u00A0' || c == '\uFEFF' ||
  c == '\u1680' || ('\u2000' ≤ c && c ≤ '\u200A') ||
  c == '\u2028' || c == '\u2029' || c == '\u202F' || c == '\u205F' || c == '\u3000'

/-- Character class of the JavaScript regex escape backslash-w:
ASCII letters, digits and underscore. -/
def isWordChar (c : Char) : Bool :=
  ('a' ≤ c && c ≤ 'z') || ('A' ≤ c && c ≤ 'Z') ||
  ('0' ≤ c && c ≤ '9') || c == '_'

/-- Characters kept by sluggify's final filter, the class [a-z0-9-]. -/
def isSlugAllowed (c : Char) : Bool :=
  ('a' ≤ c && c ≤ 'z') || ('0' ≤ c && c ≤ '9') || c == '-'

/-- Global replacement of each maximal run of characters satisfying `p`
by a single dash, as JavaScript replace with a one-class-plus pattern
and the g flag does.  The boolean records whether the previous
character belonged to a run. -/
def dashRuns (p : Char → Bool) : Bool → List Char → List Char
  | _, [] => []
  | inRun, c :: cs =>
    if p c then
      if inRun then dashRuns p true cs
      else '-' :: dashRuns p true cs
    else c :: dashRuns p false cs

/-- Embedding of sluggify from src/lib/markdown.ts: lowercase, replace
whitespace runs by a dash, strip everything outside [a-z0-9-]. -/
def sluggify (s : String) : String :=
  ⟨(dashRuns isJsWhitespace false (s.data.map Char.toLower)).filter isSlugAllowed⟩

/-- Strips leading and trailing dash runs, the JS replace of the
anchored dash-runs alternation by the empty string. -/
def stripEdgeDashes (l : List Char) : List Char :=
  ((l.dropWhile (· == '-')).reverse.dropWhile (· == '-')).reverse

/-- Embedding of the heading id computation of extractHeadings in the
search-index script: lowercase, replace each run of non-word characters
by a dash, strip leading and trailing dashes. -/
def headingId (s : String) : String :=
  ⟨stripEdgeDashes (dashRuns (fun c => !isWordChar c) false (s.data.map Char.toLower))⟩

/-- Modelled from the spec: the TOC slug is the lowercased text with
every maximal run of spaces replaced by one dash and no characters
removed. -/
def tocSlugSpec (s : String) : String :=
  ⟨dashRuns (· == ' ') false (s.data.map Char.toLower)⟩

/-- ASCII letters, digits and the space character, as an explicit
character list. -/
def letterDigitSpaceChars : List Char :=
  ("ABCDEFGHIJKLMNOPQRSTUVWXYZabcdefghijklmnopqrstuvwxyz0123456789 ").data

example : sluggify "Hello  World 42" = "hello-world-42" := by decide
example : headingId "Hello  World 42" = "hello-world-42" := by decide
example : sluggify "a.b" = "ab" := by decide
example : headingId "a.b" = "a-b" := by decide
example : headingId "!!!" = "" := by decide
example : tocSlugSpec "Hello  World 42" = "hello-world-42" := by decide

/-- On the letter, digit and space alphabet, lowercasing either fixes
the space or produces a character that is a word character, survives
the slug filter, is not whitespace and is neither a space nor a dash. -/
lemma lower_char_facts : ∀ c ∈ letterDigitSpaceChars,
    (c = ' ' ∧ Char.toLower c = ' ') ∨
    (isJsWhitespace (Char.toLower c) = false ∧ isSlugAllowed (Char.toLower c) = true ∧
     isWordChar (Char.toLower c) = true ∧ Char.toLower c ≠ ' ' ∧ Char.toLower c ≠ '-') := by
  decide

lemma dashRuns_nil (p : Char → Bool) (b : Bool) : dashRuns p b [] = [] := rfl

lemma dashRuns_cons_pos_true (p : Char → Bool) (c : Char) (cs : List Char)
    (h : p c = true) : dashRuns p true (c :: cs) = dashRuns p true cs := by
  simp [dashRuns, h]

lemma dashRuns_cons_pos_false (p : Char → Bool) (c : Char) (cs : List Char)
    (h : p c = true) : dashRuns p false (c :: cs) = '-' :: dashRuns p true cs := by
  simp [dashRuns, h]

lemma dashRuns_cons_neg (p : Char → Bool) (b : Bool) (c : Char) (cs : List Char)
    (h : p c = false) : dashRuns p b (c :: cs) = c :: dashRuns p false cs := by
  cases b <;> simp [dashRuns, h]

/-- Two run-replacement passes agree when their character classes agree
on every character of the input. -/
lemma dashRuns_congr (p q : Char → Bool) :
    ∀ (l : List Char) (b : Bool), (∀ c ∈ l, p c = q c) →
    dashRuns p b l = dashRuns q b l := by
  intro l
  induction l with
  | nil => intro b _; rfl
  | cons c cs ih =>
    intro b h
    have hc : p c = q c := h c (List.mem_cons_self c cs)
    have hcs : ∀ x ∈ cs, p x = q x := fun x hx => h x (List.mem_cons_of_mem c hx)
    by_cases hq : q c = true
    · have hp : p c = true := hc.trans hq
      cases b with
      | true => rw [dashRuns_cons_pos_true p c cs hp, dashRuns_cons_pos_true q c cs hq,
          ih true hcs]
      | false => rw [dashRuns_cons_pos_false p c cs hp, dashRuns_cons_pos_false q c cs hq,
          ih true hcs]
    · have hq' : q c = false := by simpa using hq
      have hp : p c = false := hc.trans hq'
      rw [dashRuns_cons_neg p b c cs hp, dashRuns_cons_neg q b c cs hq', ih false hcs]

/-- Core of the slug comparison: on the letter, digit and space
alphabet, the whitespace-run replacement followed by the character
filter coincides with the plain space-run replacement; the filter
removes nothing. -/
lemma sluggify_core : ∀ (l : List Char) (b : Bool),
    (∀ c ∈ l, c ∈ letterDigitSpaceChars) →
    (dashRuns isJsWhitespace b (l.map Char.toLower)).filter isSlugAllowed =
      dashRuns (· == ' ') b (l.map Char.toLower) := by
  intro l
  induction l with
  | nil => intro b _; rfl
  | cons c cs ih =>
    intro b h
    have hc := lower_char_facts c (h c (List.mem_cons_self c cs))
    have hcs : ∀ x ∈ cs, x ∈ letterDigitSpaceChars :=
      fun x hx => h x (List.mem_cons_of_mem c hx)
    rw [List.map_cons]
    rcases hc with ⟨-, hlow⟩ | ⟨hws, hallow, -, hne, -⟩
    · rw [hlow]
      have hw : isJsWhitespace ' ' = true := by decide
      have hsp : (' ' == ' ') = true := by decide
      cases b with
      | true =>
        rw [dashRuns_cons_pos_true isJsWhitespace _ _ hw,
          dashRuns_cons_pos_true (· == ' ') _ _ hsp, ih true hcs]
      | false =>
        rw [dashRuns_cons_pos_false isJsWhitespace _ _ hw,
          dashRuns_cons_pos_false (· == ' ') _ _ hsp]
        rw [List.filter_cons_of_pos (by decide), ih true hcs]
    · have hsp : (Char.toLower c == ' ') = false := by
        simpa using hne
      rw [dashRuns_cons_neg isJsWhitespace _ _ _ hws,
        dashRuns_cons_neg (· == ' ') _ _ _ hsp,
        List.filter_cons_of_pos hallow, ih false hcs]

/-- The run replacement keeps the last element whenever that element is
outside the replaced class. -/
lemma dashRuns_getLast? (p : Char → Bool) :
    ∀ (l : List Char) (b : Bool) (z : Char), l.getLast? = some z → p z = false →
    (dashRuns p b l).getLast? = some z := by
  intro l
  induction l with
  | nil => intro b z hz _; simp at hz
  | cons c cs ih =>
    intro b z hz hp
    cases cs with
    | nil =>
      simp at hz
      subst hz
      rw [dashRuns_cons_neg p b c [] hp]
      rfl
    | cons c' cs' =>
      rw [List.getLast?_cons_cons] at hz
      have htail : ∀ b, (dashRuns p b (c' :: cs')).getLast? = some z :=
        fun b => ih b z hz hp
      have hcons : ∀ (a : Char) (t : List Char), t.getLast? = some z →
          (a :: t).getLast? = some z := by
        intro a t ht
        cases t with
        | nil => simp at ht
        | cons x xs => rw [List.getLast?_cons_cons]; exact ht
      by_cases hc : p c = true
      · cases b with
        | true => rw [dashRuns_cons_pos_true p c _ hc]; exact htail true
        | false => rw [dashRuns_cons_pos_false p c _ hc]; exact hcons _ _ (htail true)
      · have hc' : p c = false := by simpa using hc
        rw [dashRuns_cons_neg p b c _ hc']
        exact hcons _ _ (htail false)

/-- Stripping edge dashes is the identity on lists that neither start
nor end with a dash. -/
lemma stripEdgeDashes_noop (l : List Char)
    (hhead : ∀ h, l.head? = some h → h ≠ '-')
    (hlast : ∀ z, l.getLast? = some z → z ≠ '-') :
    stripEdgeDashes l = l := by
  cases l with
  | nil => rfl
  | cons c cs =>
    have hc : c ≠ '-' := hhead c rfl
    unfold stripEdgeDashes
    rw [List.dropWhile_cons_of_neg (by simpa using hc)]
    obtain ⟨z, hz⟩ : ∃ z, (c :: cs).getLast? = some z := by
      cases h : (c :: cs).getLast? with
      | none => simp at h
      | some z => exact ⟨z, rfl⟩
    have hzd : z ≠ '-' := hlast z hz
    have hrev : (c :: cs).reverse.head? = some z := by
      rw [List.head?_reverse]; exact hz
    cases hr : (c :: cs).reverse with
    | nil => simp [hr] at hrev
    | cons y ys =>
      rw [hr] at hrev
      simp at hrev
      subst hrev
      rw [List.dropWhile_cons_of_neg (by simpa using hzd), ← hr, List.reverse_reverse]

/-- Claim C7: for heading text made only of ASCII letters, digits and
spaces, sluggify returns the lowercased text with every maximal run of
spaces replaced by a single dash and no characters removed. -/
theorem sluggify_letters_digits_spaces (s : String)
    (h : ∀ c ∈ s.data, c ∈ letterDigitSpaceChars) :
    sluggify s = tocSlugSpec s :=
  congrArg String.mk (sluggify_core s.data false h)

/-- Witness for Claim C7 at a concrete heading text. -/
theorem sluggify_letters_digits_spaces_witness :
    sluggify "Zero Sync  Engine 2" = tocSlugSpec "Zero Sync  Engine 2" :=
  sluggify_letters_digits_spaces _ (by decide)

/-- Claim C1 is false as stated: the pattern-based TOC slug and the
structural-parse heading id differ on the heading text a.b — the TOC
slug deletes the dot while the heading id turns it into a dash. -/
theorem sluggify_ne_headingId_counterexample :
    sluggify "a.b" ≠ headingId "a.b" := by decide

/-- Claim C1 amended: the two slug algorithms agree on every heading
text made only of ASCII letters, digits and spaces that neither starts
nor ends with a space. -/
theorem sluggify_eq_headingId_amended (s : String)
    (hall : ∀ c ∈ s.data, c ∈ letterDigitSpaceChars)
    (hhead : ∀ h, s.data.head? = some h → h ≠ ' ')
    (hlast : ∀ z, s.data.getLast? = some z → z ≠ ' ') :
    sluggify s = headingId s := by
  have hswap : dashRuns (fun c => !isWordChar c) false (s.data.map Char.toLower) =
      dashRuns (· == ' ') false (s.data.map Char.toLower) := by
    apply dashRuns_congr
    intro d hd
    obtain ⟨c, hc, rfl⟩ := List.mem_map.mp hd
    rcases lower_char_facts c (hall c hc) with ⟨-, hlow⟩ | ⟨-, -, hword, hne, -⟩
    · rw [hlow]; decide
    · have hne' : (Char.toLower c == ' ') = false := by simpa using hne
      rw [hword, hne']
      rfl
  have hstrip : stripEdgeDashes (dashRuns (· == ' ') false (s.data.map Char.toLower)) =
      dashRuns (· == ' ') false (s.data.map Char.toLower) := by
    apply stripEdgeDashes_noop
    · intro h0 hh0
      cases hsd : s.data with
      | nil => rw [hsd] at hh0; simp [dashRuns] at hh0
      | cons c cs =>
        have hc : c ∈ letterDigitSpaceChars := hall c (by rw [hsd]; exact List.mem_cons_self c cs)
        have hcsp : c ≠ ' ' := hhead c (by rw [hsd]; rfl)
        rcases lower_char_facts c hc with ⟨hsp, -⟩ | ⟨-, -, -, hne, hnd⟩
        · exact absurd hsp hcsp
        · have hne' : (Char.toLower c == ' ') = false := by simpa using hne
          rw [hsd, List.map_cons, dashRuns_cons_neg (· == ' ') false _ _ hne'] at hh0
          simp at hh0
          rw [hh0] at hnd
          exact hnd
    · intro z hz
      cases hsd : s.data.getLast? with
      | none =>
        have : s.data = [] := by
          cases h : s.data with
          | nil => rfl
          | cons c cs => rw [h] at hsd; simp [List.getLast?_cons_cons] at hsd
        rw [this] at hz
        simp [dashRuns_nil] at hz
      | some z0 =>
        have hz0mem : z0 ∈ s.data := by
          obtain ⟨hne0, heq⟩ := List.mem_getLast?_eq_getLast (l := s.data) (x := z0) hsd
          rw [heq]
          exact List.getLast_mem hne0
        have hz0sp : z0 ≠ ' ' := hlast z0 hsd
        rcases lower_char_facts z0 (hall z0 hz0mem) with ⟨hsp, -⟩ | ⟨-, -, -, hne, hnd⟩
        · exact absurd hsp hz0sp
        · have hmap : (s.data.map Char.toLower).getLast? = some (Char.toLower z0) := by
            rw [List.getLast?_map, hsd]
            rfl
          have hne' : ((Char.toLower z0) == ' ') = false := by simpa using hne
          have := dashRuns_getLast? (· == ' ') (s.data.map Char.toLower) false
            (Char.toLower z0) hmap hne'
          rw [this] at hz
          have hzz : z = Char.toLower z0 := by simpa using hz.symm
          rw [hzz]
          exact hnd
  calc sluggify s
      = ⟨dashRuns (· == ' ') false (s.data.map Char.toLower)⟩ :=
        congrArg String.mk (sluggify_core s.data false hall)
    _ = ⟨stripEdgeDashes (dashRuns (· == ' ') false (s.data.map Char.toLower))⟩ :=
        congrArg String.mk hstrip.symm
    _ = headingId s := congrArg String.mk (congrArg stripEdgeDashes hswap.symm)

/-- Witness for the amended Claim C1 at a concrete heading text. -/
theorem sluggify_eq_headingId_amended_witness :
    sluggify "Life of a Mutation 3" = headingId "Life of a Mutation 3" :=
  sluggify_eq_headingId_amended _ (by decide) (by decide) (by decide)

/-- Join of the content root with a slug-derived segment, the model of
path.join of the process working directory, the contents/docs folder
and the segment. -/
def docsPath (cwd slug : String) : String := cwd ++ "/contents/docs/" ++ slug

/-- The JavaScript String endsWith, as a suffix test on the character
lists. -/
def jsEndsWith (s pat : String) : Bool := pat.data.isSuffixOf s.data

/-- Embedding of getDocsContentPath from src/lib/markdown.ts.
The existence probe fs.stat is modelled by the boolean oracle
fsStatOk; the source wraps the probe in try/catch, so every probe
failure (missing file or any other stat error) is the false case and
selects the final fallback, and the function itself never throws. -/
def getDocsContentPath (cwd : String) (fsStatOk : String → Bool) (slug : String) : String :=
  if jsEndsWith slug ".mdx" then docsPath cwd slug
  else
    let mdxPath := docsPath cwd (slug ++ ".mdx")
    if fsStatOk mdxPath then mdxPath
    else docsPath cwd (slug ++ "/index.mdx")

/-- Claim C4: the resolver returns the literal joined path for slugs
already carrying the extension, otherwise the probed sibling file when
the probe succeeds, otherwise the directory index file with no
existence check; in every case the result is one of these three
candidates, so the resolver never fails. -/
theorem getDocsContentPath_fallback_chain (cwd : String) (fsStatOk : String → Bool)
    (slug : String) :
    (jsEndsWith slug ".mdx" = true →
      getDocsContentPath cwd fsStatOk slug = docsPath cwd slug) ∧
    (jsEndsWith slug ".mdx" = false → fsStatOk (docsPath cwd (slug ++ ".mdx")) = true →
      getDocsContentPath cwd fsStatOk slug = docsPath cwd (slug ++ ".mdx")) ∧
    (jsEndsWith slug ".mdx" = false → fsStatOk (docsPath cwd (slug ++ ".mdx")) = false →
      getDocsContentPath cwd fsStatOk slug = docsPath cwd (slug ++ "/index.mdx")) ∧
    (getDocsContentPath cwd fsStatOk slug = docsPath cwd slug ∨
     getDocsContentPath cwd fsStatOk slug = docsPath cwd (slug ++ ".mdx") ∨
     getDocsContentPath cwd fsStatOk slug = docsPath cwd (slug ++ "/index.mdx")) := by
  refine ⟨fun h => by simp [getDocsContentPath, h], fun h hp => by
    simp [getDocsContentPath, h, hp], fun h hp => by simp [getDocsContentPath, h, hp], ?_⟩
  by_cases h : jsEndsWith slug ".mdx"
  · exact Or.inl (by simp [getDocsContentPath, h])
  · by_cases hp : fsStatOk (docsPath cwd (slug ++ ".mdx"))
    · exact Or.inr (Or.inl (by simp [getDocsContentPath, h, hp]))
    · exact Or.inr (Or.inr (by simp [getDocsContentPath, h, hp]))

/-- Witness for Claim C4: the three branches of the fallback chain at
concrete slugs and probe oracles. -/
theorem getDocsContentPath_fallback_chain_witness :
    getDocsContentPath "" (fun _ => false) "x.mdx" = "/contents/docs/x.mdx" ∧
    getDocsContentPath "" (fun p => p == "/contents/docs/x.mdx") "x" = "/contents/docs/x.mdx" ∧
    getDocsContentPath "" (fun _ => false) "x" = "/contents/docs/x/index.mdx" :=
  ⟨(getDocsContentPath_fallback_chain "" (fun _ => false) "x.mdx").1 (by decide),
   (getDocsContentPath_fallback_chain "" (fun p => p == "/contents/docs/x.mdx") "x").2.1
     (by decide) (by decide),
   (getDocsContentPath_fallback_chain "" (fun _ => false) "x").2.2.1 (by decide) (by decide)⟩

/-- A page route of the static route table, title plus href. -/
structure Route where
  title : String
  href : String
deriving DecidableEq, Repr

/-- JavaScript array indexing with a possibly negative index: negative
and out-of-range indices yield undefined. -/
def jsIndex (routes : List Route) (i : Int) : Option Route :=
  if i < 0 then none else routes.get? i.toNat

/-- Embedding of getPreviousNext from src/lib/markdown.ts.  The route
table is passed explicitly; findIndex yields -1 when no href matches,
and the neighbours are read with plain JS indexing. -/
def getPreviousNext (routes : List Route) (path : String) : Option Route × Option Route :=
  let index : Int :=
    match routes.findIdx? (fun r => r.href == "/" ++ path) with
    | some i => (i : Int)
    | none => -1
  (jsIndex routes (index - 1), jsIndex routes (index + 1))

/-- When the path matches the route at index i, the previous and next
routes are the entries at i-1 and i+1 of the table. -/
lemma getPreviousNext_found (routes : List Route) (path : String) (i : Nat)
    (h : routes.findIdx? (fun r => r.href == "/" ++ path) = some i) :
    getPreviousNext routes path =
      ((if i = 0 then none else routes.get? (i - 1)), routes.get? (i + 1)) := by
  have hprev : jsIndex routes ((i : Int) - 1) =
      (if i = 0 then none else routes.get? (i - 1)) := by
    cases i with
    | zero =>
      norm_num [jsIndex]
    | succ k =>
      have hpos : ¬ (((k + 1 : Nat) : Int) - 1 < 0) := by omega
      have htn : (((k + 1 : Nat) : Int) - 1).toNat = k := by omega
      have hk : k + 1 - 1 = k := rfl
      rw [jsIndex, if_neg hpos, htn, if_neg (Nat.succ_ne_zero k), hk]
  have hnext : jsIndex routes ((i : Int) + 1) = routes.get? (i + 1) := by
    have hpos : ¬ ((i : Int) + 1 < 0) := by omega
    have htn : ((i : Int) + 1).toNat = i + 1 := by omega
    rw [jsIndex, if_neg hpos, htn]
  unfold getPreviousNext
  rw [h]
  show (jsIndex routes ((i : Int) - 1), jsIndex routes ((i : Int) + 1)) = _
  rw [hprev, hnext]

/-- Claim C8: in a three-route table, a path matching the first route
has no previous and the second route as next; a path matching only the
last route has the second route as previous and no next; in general a
path matching at index i gets the routes at i-1 and i+1, absent when
out of range. -/
theorem getPreviousNext_neighbours (routes : List Route) (path : String) :
    (∀ i, routes.findIdx? (fun r => r.href == "/" ++ path) = some i →
      getPreviousNext routes path =
        ((if i = 0 then none else routes.get? (i - 1)), routes.get? (i + 1))) ∧
    (∀ p0 p1 p2, routes = [p0, p1, p2] →
      (p0.href = "/" ++ path → getPreviousNext routes path = (none, some p1)) ∧
      (p0.href ≠ "/" ++ path → p1.href ≠ "/" ++ path → p2.href = "/" ++ path →
        getPreviousNext routes path = (some p1, none))) := by
  refine ⟨fun i h => getPreviousNext_found routes path i h, ?_⟩
  intro p0 p1 p2 hr
  subst hr
  constructor
  · intro h0
    have hidx : [p0, p1, p2].findIdx? (fun r => r.href == "/" ++ path) = some 0 := by
      rw [List.findIdx?_cons]
      simp [h0]
    rw [getPreviousNext_found [p0, p1, p2] path 0 hidx]
    simp [List.get?]
  · intro h0 h1 h2
    have hidx : [p0, p1, p2].findIdx? (fun r => r.href == "/" ++ path) = some 2 := by
      rw [List.findIdx?_cons]
      simp only [beq_iff_eq, h0, if_false]
      rw [List.findIdx?_cons]
      simp only [beq_iff_eq, h1, if_false]
      rw [List.findIdx?_cons]
      simp [h2]
    rw [getPreviousNext_found [p0, p1, p2] path 2 hidx]
    simp [List.get?]

/-- Witness for Claim C8 on a concrete three-route table. -/
theorem getPreviousNext_neighbours_witness :
    getPreviousNext [⟨"A", "/a"⟩, ⟨"B", "/b"⟩, ⟨"C", "/c"⟩] "a" =
      (none, some ⟨"B", "/b"⟩) ∧
    getPreviousNext [⟨"A", "/a"⟩, ⟨"B", "/b"⟩, ⟨"C", "/c"⟩] "c" =
      (some ⟨"B", "/b"⟩, none) :=
  ⟨(((getPreviousNext_neighbours [⟨"A", "/a"⟩, ⟨"B", "/b"⟩, ⟨"C", "/c"⟩] "a").2
      ⟨"A", "/a"⟩ ⟨"B", "/b"⟩ ⟨"C", "/c"⟩ rfl).1 (by decide)),
   (((getPreviousNext_neighbours [⟨"A", "/a"⟩, ⟨"B", "/b"⟩, ⟨"C", "/c"⟩] "c").2
      ⟨"A", "/a"⟩ ⟨"B", "/b"⟩ ⟨"C", "/c"⟩ rfl).2 (by decide) (by decide) (by decide))⟩

/-- Claim C9: when no route href matches the path, the failed lookup
index -1 makes the previous route undefined and the next route the
first entry of a nonempty table. -/
theorem getPreviousNext_absent (routes : List Route) (path : String)
    (hne : routes ≠ [])
    (habs : ∀ r ∈ routes, r.href ≠ "/" ++ path) :
    ∃ r0, routes.head? = some r0 ∧ getPreviousNext routes path = (none, some r0) := by
  have hidx : routes.findIdx? (fun r => r.href == "/" ++ path) = none := by
    rw [List.findIdx?_eq_none_iff]
    intro r hr
    simpa using habs r hr
  cases routes with
  | nil => exact absurd rfl hne
  | cons r0 rest =>
    refine ⟨r0, rfl, ?_⟩
    unfold getPreviousNext
    rw [hidx]
    have h1 : ((-1 : Int) - 1 < 0) := by omega
    have h2 : ¬ ((-1 : Int) + 1 < 0) := by omega
    simp only [jsIndex, if_pos h1, if_neg h2]
    rfl

/-- Witness for Claim C9 on a concrete table and unmatched path. -/
theorem getPreviousNext_absent_witness :
    ∃ r0, ([⟨"A", "/a"⟩, ⟨"B", "/b"⟩] : List Route).head? = some r0 ∧
      getPreviousNext [⟨"A", "/a"⟩, ⟨"B", "/b"⟩] "zzz" = (none, some r0) :=
  getPreviousNext_absent [⟨"A", "/a"⟩, ⟨"B", "/b"⟩] "zzz" (by decide) (by decide)

/-- A directory entry of the content tree: a plain file or a
subdirectory with its entries, in readdir order. -/
inductive FSEntry where
  | file : String → FSEntry
  | dir : String → List FSEntry → FSEntry

/-- Embedding of getAllIndexMDXFiles from the search-index script,
applied to the entry list of a directory: recurse into every
subdirectory in readdir order and collect every file whose name is
exactly index.mdx. -/
def getAllIndexMDXFiles (dir : String) : List FSEntry → List String
  | [] => []
  | FSEntry.file n :: rest =>
    (if n == "index.mdx" then [dir ++ "/" ++ n] else []) ++ getAllIndexMDXFiles dir rest
  | FSEntry.dir n sub :: rest =>
    getAllIndexMDXFiles (dir ++ "/" ++ n) sub ++ getAllIndexMDXFiles dir rest

/-- All files of a tree with their full paths and bare names, in
traversal order. -/
def allFiles (dir : String) : List FSEntry → List (String × String)
  | [] => []
  | FSEntry.file n :: rest => (dir ++ "/" ++ n, n) :: allFiles dir rest
  | FSEntry.dir n sub :: rest => allFiles (dir ++ "/" ++ n) sub ++ allFiles dir rest

/-- Claim C5: discovery returns exactly the files named index.mdx, at
any depth and in traversal order, and no other file; on the example
tree with a/index.mdx, a/b/index.mdx and a/notes.mdx it returns
exactly the two index files. -/
lemma getAllIndexMDXFiles_spec : ∀ (dir : String) (entries : List FSEntry),
    getAllIndexMDXFiles dir entries =
      (allFiles dir entries).filterMap
        (fun pn => if pn.2 == "index.mdx" then some pn.1 else none)
  | dir, [] => by
    rw [getAllIndexMDXFiles, allFiles]
    rfl
  | dir, FSEntry.file n :: rest => by
    rw [getAllIndexMDXFiles, allFiles, List.filterMap_cons,
      getAllIndexMDXFiles_spec dir rest]
    by_cases hn : n == "index.mdx"
    · simp [hn]
    · simp [hn]
  | dir, FSEntry.dir n sub :: rest => by
    rw [getAllIndexMDXFiles, allFiles, List.filterMap_append,
      getAllIndexMDXFiles_spec (dir ++ "/" ++ n) sub, getAllIndexMDXFiles_spec dir rest]

theorem getAllIndexMDXFiles_exact :
    (∀ (dir : String) (entries : List FSEntry),
      getAllIndexMDXFiles dir entries =
        (allFiles dir entries).filterMap
          (fun pn => if pn.2 == "index.mdx" then some pn.1 else none)) ∧
    getAllIndexMDXFiles "docs"
        [FSEntry.dir "a"
          [FSEntry.file "index.mdx",
           FSEntry.dir "b" [FSEntry.file "index.mdx"],
           FSEntry.file "notes.mdx"]] =
      ["docs/a/index.mdx", "docs/a/b/index.mdx"] := by
  refine ⟨getAllIndexMDXFiles_spec, ?_⟩
  simp [getAllIndexMDXFiles]

/-- A heading of a search document, display text plus anchor id. -/
structure Heading where
  text : String
  id : String
deriving DecidableEq, Repr

/-- The unit persisted to the search index. -/
structure SearchDocument where
  id : String
  title : String
  folderName : String
  content : String
  url : String
  headings : List Heading
deriving DecidableEq, Repr

/-- Promise.all over the per-document extraction tasks: succeeds with
the documents in discovery order only when every extraction succeeds,
otherwise carries an extraction error. -/
def extractAll (extract : String → Except String SearchDocument) :
    List String → Except String (List SearchDocument)
  | [] => Except.ok []
  | f :: fs =>
    match extract f with
    | Except.error e => Except.error e
    | Except.ok d =>
      match extractAll extract fs with
      | Except.error e => Except.error e
      | Except.ok ds => Except.ok (d :: ds)

/-- Observable outcome of one run of the batch index job: the output
artifact after the run (parsed form), the line printed, and the exit
status of the process. -/
structure BatchOutcome where
  artifact : Option (List SearchDocument)
  log : String
  exitCode : Nat
deriving DecidableEq, Repr

/-- The fixed output location of the search index artifact. -/
def outputFile : String := "public/search-index.json"

/-- Embedding of generateSearchIndex together with its top-level
invocation generateSearchIndex().catch(console.error): discover the
index files, run every extraction, and only on full success attempt
the fs.writeFileSync of the artifact and print the confirmation.  The
write is an environment oracle: given the index and the previous
artifact state it either succeeds — the artifact then holds the new
index — or throws an error, leaving the artifact in the state the
oracle reports (unchanged for a failed open, possibly partial content
for a failure mid-write).  Any rejection, from extraction or from the
write, is caught by the catch handler, which prints the error and
leaves the process to exit with status zero; the confirmation is then
never printed. -/
def runSearchIndexJob (docsRoot : String) (tree : List FSEntry)
    (extract : String → Except String SearchDocument)
    (write : List SearchDocument → Option (List SearchDocument) →
      Except (String × Option (List SearchDocument)) Unit)
    (prevArtifact : Option (List SearchDocument)) : BatchOutcome :=
  match extractAll extract (getAllIndexMDXFiles docsRoot tree) with
  | Except.ok index =>
    match write index prevArtifact with
    | Except.ok _ =>
      { artifact := some index,
        log := "✅ Search index generated: " ++ outputFile,
        exitCode := 0 }
    | Except.error es =>
      { artifact := es.2, log := es.1, exitCode := 0 }
  | Except.error e =>
    { artifact := prevArtifact, log := e, exitCode := 0 }

lemma extractAll_ok_iff (extract : String → Except String SearchDocument) :
    ∀ files : List String,
      (∃ ds, extractAll extract files = Except.ok ds) ↔
        ∀ f ∈ files, ∃ d, extract f = Except.ok d := by
  intro files
  induction files with
  | nil => simp [extractAll]
  | cons f fs ih =>
    constructor
    · rintro ⟨ds, hds⟩ g hg
      rw [extractAll] at hds
      cases hf : extract f with
      | error e => rw [hf] at hds; exact absurd hds (by simp)
      | ok d =>
        rw [hf] at hds
        cases hfs : extractAll extract fs with
        | error e => rw [hfs] at hds; exact absurd hds (by simp)
        | ok ds2 =>
          rcases List.mem_cons.mp hg with hg | hg
          · exact ⟨d, hg ▸ hf⟩
          · exact (ih.mp ⟨ds2, hfs⟩) g hg
    · intro h
      obtain ⟨d, hd⟩ := h f (List.mem_cons_self f fs)
      obtain ⟨ds, hds⟩ := ih.mpr (fun g hg => h g (List.mem_cons_of_mem f hg))
      exact ⟨d :: ds, by rw [extractAll, hd, hds]⟩

lemma extractAll_error_mem (extract : String → Except String SearchDocument) :
    ∀ (files : List String) (e : String),
      extractAll extract files = Except.error e →
      ∃ f ∈ files, extract f = Except.error e := by
  intro files
  induction files with
  | nil => intro e he; rw [extractAll] at he; exact absurd he (by simp)
  | cons f fs ih =>
    intro e he
    rw [extractAll] at he
    cases hf : extract f with
    | error e2 =>
      rw [hf] at he
      obtain rfl : e2 = e := by simpa using he
      exact ⟨f, List.mem_cons_self f fs, hf⟩
    | ok d =>
      rw [hf] at he
      cases hfs : extractAll extract fs with
      | error e2 =>
        rw [hfs] at he
        obtain rfl : e2 = e := by simpa using he
        obtain ⟨g, hg, hge⟩ := ih _ hfs
        exact ⟨g, List.mem_cons_of_mem f hg, hge⟩
      | ok ds => rw [hfs] at he; exact absurd he (by simp)

/-- Claim C2: when the extraction of any discovered document fails, the
batch build writes nothing — the previous artifact is left exactly as
it was and no partial index is produced. -/
theorem batch_no_partial_write (docsRoot : String) (tree : List FSEntry)
    (extract : String → Except String SearchDocument)
    (write : List SearchDocument → Option (List SearchDocument) →
      Except (String × Option (List SearchDocument)) Unit)
    (prev : Option (List SearchDocument)) (f e : String)
    (hf : f ∈ getAllIndexMDXFiles docsRoot tree)
    (he : extract f = Except.error e) :
    (runSearchIndexJob docsRoot tree extract write prev).artifact = prev := by
  unfold runSearchIndexJob
  cases h : extractAll extract (getAllIndexMDXFiles docsRoot tree) with
  | error e2 => rfl
  | ok ds =>
    obtain ⟨d, hd⟩ := (extractAll_ok_iff extract _).mp ⟨ds, h⟩ f hf
    rw [he] at hd
    exact absurd hd (by simp)

/-- Witness for Claim C2: a failing document leaves a concrete previous
artifact in place. -/
theorem batch_no_partial_write_witness :
    (runSearchIndexJob "docs" [FSEntry.file "index.mdx"]
        (fun _ => Except.error "parse failure") (fun _ _ => Except.ok ())
        (some [])).artifact = some [] :=
  batch_no_partial_write "docs" [FSEntry.file "index.mdx"]
    (fun _ => Except.error "parse failure") (fun _ _ => Except.ok ()) (some [])
    "docs/index.mdx" "parse failure"
    (by simp [getAllIndexMDXFiles]) rfl

/-- Claim C3 is false as stated: on a run whose only discovered
document fails to extract, the process logs the error but exits with
status zero, because the top-level catch handler swallows the
rejection; the claim demands a non-zero exit status. -/
theorem batch_exit_zero_counterexample :
    (runSearchIndexJob "docs" [FSEntry.file "index.mdx"]
        (fun _ => Except.error "parse failure") (fun _ _ => Except.ok ())
        none).log = "parse failure" ∧
    (runSearchIndexJob "docs" [FSEntry.file "index.mdx"]
        (fun _ => Except.error "parse failure") (fun _ _ => Except.ok ())
        none).exitCode = 0 := by
  constructor <;>
    simp [runSearchIndexJob, getAllIndexMDXFiles, extractAll]

/-- Claim C3 amended: on any run in which some discovered document
fails to extract, the job logs an extraction error and the process
exits with status zero, leaving the artifact unchanged; on a run in
which every extraction succeeds the write is attempted: when the
write succeeds the job prints the confirmation message and exits with
status zero, and when the write throws the same catch handler logs
the write error and the process exits with status zero, the
confirmation never printed. -/
theorem batch_outcome_amended (docsRoot : String) (tree : List FSEntry)
    (extract : String → Except String SearchDocument)
    (write : List SearchDocument → Option (List SearchDocument) →
      Except (String × Option (List SearchDocument)) Unit)
    (prev : Option (List SearchDocument)) :
    ((∃ f e, f ∈ getAllIndexMDXFiles docsRoot tree ∧ extract f = Except.error e) →
      ∃ f2 e2, f2 ∈ getAllIndexMDXFiles docsRoot tree ∧ extract f2 = Except.error e2 ∧
        (runSearchIndexJob docsRoot tree extract write prev).artifact = prev ∧
        (runSearchIndexJob docsRoot tree extract write prev).log = e2 ∧
        (runSearchIndexJob docsRoot tree extract write prev).exitCode = 0) ∧
    ((∀ f ∈ getAllIndexMDXFiles docsRoot tree, ∃ d, extract f = Except.ok d) →
      ∃ ds, extractAll extract (getAllIndexMDXFiles docsRoot tree) = Except.ok ds ∧
        (write ds prev = Except.ok () →
          (runSearchIndexJob docsRoot tree extract write prev).artifact = some ds ∧
          (runSearchIndexJob docsRoot tree extract write prev).log =
            "✅ Search index generated: " ++ outputFile ∧
          (runSearchIndexJob docsRoot tree extract write prev).exitCode = 0) ∧
        (∀ e2 st, write ds prev = Except.error (e2, st) →
          (runSearchIndexJob docsRoot tree extract write prev).artifact = st ∧
          (runSearchIndexJob docsRoot tree extract write prev).log = e2 ∧
          (runSearchIndexJob docsRoot tree extract write prev).exitCode = 0)) := by
  constructor
  · rintro ⟨f, e, hf, he⟩
    cases h : extractAll extract (getAllIndexMDXFiles docsRoot tree) with
    | ok ds =>
      obtain ⟨d, hd⟩ := (extractAll_ok_iff extract _).mp ⟨ds, h⟩ f hf
      rw [he] at hd
      exact absurd hd (by simp)
    | error e2 =>
      obtain ⟨f2, hf2, hfe2⟩ := extractAll_error_mem extract _ e2 h
      refine ⟨f2, e2, hf2, hfe2, ?_, ?_, ?_⟩ <;>
        · unfold runSearchIndexJob
          rw [h]
  · intro h
    obtain ⟨ds, hds⟩ := (extractAll_ok_iff extract _).mpr h
    refine ⟨ds, hds, ?_, ?_⟩
    · intro hw
      refine ⟨?_, ?_, ?_⟩ <;>
        simp only [runSearchIndexJob, hds, hw]
    · intro e2 st hw
      refine ⟨?_, ?_, ?_⟩ <;>
        simp only [runSearchIndexJob, hds, hw]

/-- Witness for the amended Claim C3: the extraction-failure branch
and the write-failure branch, each at a concrete tree, oracles and
empty previous artifact. -/
theorem batch_outcome_amended_witness :
    (∃ f2 e2, f2 ∈ getAllIndexMDXFiles "docs" [FSEntry.file "index.mdx"] ∧
      (fun _ : String => (Except.error "boom" : Except String SearchDocument)) f2 =
        Except.error e2 ∧
      (runSearchIndexJob "docs" [FSEntry.file "index.mdx"]
        (fun _ => Except.error "boom") (fun _ _ => Except.ok ()) none).artifact = none ∧
      (runSearchIndexJob "docs" [FSEntry.file "index.mdx"]
        (fun _ => Except.error "boom") (fun _ _ => Except.ok ()) none).log = e2 ∧
      (runSearchIndexJob "docs" [FSEntry.file "index.mdx"]
        (fun _ => Except.error "boom") (fun _ _ => Except.ok ()) none).exitCode = 0) ∧
    ((runSearchIndexJob "docs" [FSEntry.file "index.mdx"]
        (fun _ => Except.ok { id := "", title := "t", folderName := "", content := "", url := "/docs/", headings := [] })
        (fun _ _ => Except.error ("EACCES: permission denied", none)) none).log =
      "EACCES: permission denied" ∧
     (runSearchIndexJob "docs" [FSEntry.file "index.mdx"]
        (fun _ => Except.ok { id := "", title := "t", folderName := "", content := "", url := "/docs/", headings := [] })
        (fun _ _ => Except.error ("EACCES: permission denied", none)) none).exitCode = 0 ∧
     (runSearchIndexJob "docs" [FSEntry.file "index.mdx"]
        (fun _ => Except.ok { id := "", title := "t", folderName := "", content := "", url := "/docs/", headings := [] })
        (fun _ _ => Except.error ("EACCES: permission denied", none)) none).artifact = none) := by
  constructor
  · exact (batch_outcome_amended "docs" [FSEntry.file "index.mdx"]
      (fun _ => Except.error "boom") (fun _ _ => Except.ok ()) none).1
      ⟨"docs/index.mdx", "boom", by simp [getAllIndexMDXFiles], rfl⟩
  · obtain ⟨ds, -, -, herr⟩ := (batch_outcome_amended "docs" [FSEntry.file "index.mdx"]
      (fun _ => Except.ok { id := "", title := "t", folderName := "", content := "", url := "/docs/", headings := [] })
      (fun _ _ => Except.error ("EACCES: permission denied", none)) none).2
      (fun f _ => ⟨_, rfl⟩)
    obtain ⟨h1, h2, h3⟩ := herr "EACCES: permission denied" none rfl
    exact ⟨h2, h3, h1⟩

/-- JavaScript line terminators: the characters the regex dot refuses
and the multiline anchors recognise. -/
def isLineTerm (c : Char) : Bool :=
  c == '\n' || c == '\r' || c == '\u2028' || c == '\u2029'

/-- Length of the leading run of hash characters. -/
def hashRun : List Char → Nat
  | [] => 0
  | c :: cs => if c == '#' then hashRun cs + 1 else 0

/-- Continuation of the TOC heading regex after the hashes: one
whitespace character — which, per the JS whitespace class, may itself
be a line terminator — then the greedy nonempty group of
non-terminator characters; the multiline end anchor then always
holds.  Returns level, capture group two and the remaining input. -/
def matchTail (k : Nat) : List Char → Option (Nat × List Char × List Char)
  | [] => none
  | c :: rest =>
    if isJsWhitespace c then
      if (rest.takeWhile (fun d => !isLineTerm d)).isEmpty then none
      else some (k, rest.takeWhile (fun d => !isLineTerm d),
        rest.drop (rest.takeWhile (fun d => !isLineTerm d)).length)
    else none

/-- One attempt of the TOC heading regex at a line-start position:
two to four leading hashes, then the tail.  Backtracking inside the
hash run cannot help, because the character before a shorter run's
whitespace slot is always a hash. -/
def matchAt (l : List Char) : Option (Nat × List Char × List Char) :=
  if 2 ≤ hashRun l ∧ hashRun l ≤ 4 then matchTail (hashRun l) (l.drop (hashRun l))
  else none

/-- The position right after the next line terminator: the next
candidate line start for the multiline caret anchor. -/
def afterNextTerm : List Char → List Char
  | [] => []
  | c :: cs => if isLineTerm c then cs else afterNextTerm cs

lemma afterNextTerm_length_le : ∀ l : List Char, (afterNextTerm l).length ≤ l.length
  | [] => Nat.le_refl 0
  | c :: cs => by
    rw [afterNextTerm]
    by_cases h : isLineTerm c
    · rw [if_pos h]
      exact Nat.le_succ _
    · rw [if_neg h]
      exact Nat.le_trans (afterNextTerm_length_le cs) (Nat.le_succ _)

lemma afterNextTerm_cons_lt (c : Char) (cs : List Char) :
    (afterNextTerm (c :: cs)).length < (c :: cs).length := by
  rw [afterNextTerm]
  by_cases h : isLineTerm c
  · rw [if_pos h]
    exact Nat.lt_succ_self _
  · rw [if_neg h]
    exact Nat.lt_succ_of_le (afterNextTerm_length_le cs)

lemma matchTail_some (k : Nat) (t : List Char) (k2 : Nat) (g2 rest : List Char)
    (h : matchTail k t = some (k2, g2, rest)) :
    ∃ c rest2, t = c :: rest2 ∧ isJsWhitespace c = true ∧
      g2 = rest2.takeWhile (fun d => !isLineTerm d) ∧ g2.isEmpty = false ∧
      rest = rest2.drop g2.length ∧ k2 = k := by
  cases t with
  | nil => rw [matchTail] at h; exact absurd h (by simp)
  | cons c rest2 =>
    rw [matchTail] at h
    by_cases hw : isJsWhitespace c
    · rw [if_pos hw] at h
      by_cases hg : (rest2.takeWhile (fun d => !isLineTerm d)).isEmpty
      · rw [if_pos hg] at h
        exact absurd h (by simp)
      · rw [if_neg hg] at h
        have h3 := Option.some.inj h
        obtain ⟨h4, h5, h6⟩ : k = k2 ∧
            rest2.takeWhile (fun d => !isLineTerm d) = g2 ∧
            rest2.drop (rest2.takeWhile (fun d => !isLineTerm d)).length = rest := by
          have := Prod.mk.injEq .. ▸ h3
          refine ⟨congrArg Prod.fst h3, ?_, ?_⟩
          · exact congrArg (fun p => p.2.1) h3
          · exact congrArg (fun p => p.2.2) h3
        refine ⟨c, rest2, rfl, by simpa using hw, h5.symm, ?_, ?_, h4.symm⟩
        · rw [← h5]; simpa using hg
        · rw [← h6, h5]
    · rw [if_neg hw] at h
      exact absurd h (by simp)

lemma hashRun_le_length : ∀ l : List Char, hashRun l ≤ l.length
  | [] => Nat.le_refl 0
  | c :: cs => by
    rw [hashRun]
    by_cases h : c == '#'
    · rw [if_pos h]
      exact Nat.succ_le_succ (hashRun_le_length cs)
    · rw [if_neg h]
      exact Nat.zero_le _

lemma matchAt_rest_lt (l : List Char) (k : Nat) (g2 rest : List Char)
    (h : matchAt l = some (k, g2, rest)) : rest.length < l.length := by
  unfold matchAt at h
  by_cases hk : 2 ≤ hashRun l ∧ hashRun l ≤ 4
  · rw [if_pos hk] at h
    obtain ⟨c, rest2, ht, -, -, -, hrest, -⟩ := matchTail_some _ _ _ _ _ h
    have hlen : rest2.length + 1 ≤ l.length := by
      have h9 := congrArg List.length ht
      rw [List.length_drop, List.length_cons] at h9
      omega
    have h8 : rest.length ≤ rest2.length := by
      rw [hrest, List.length_drop]
      omega
    omega
  · rw [if_neg hk] at h
    exact absurd h (by simp)

/-- The global multiline scan of the heading regex with the g flag:
try a match at the current line start; on a match emit level and group
two and resume after the match, whose end always sits at a line
terminator or at the end of input; otherwise resume at the next line
start. -/
def scanToc : List Char → List (Nat × List Char)
  | [] => []
  | c :: cs =>
    match hm : matchAt (c :: cs) with
    | some (k, g2, rest) => (k, g2) :: scanToc (afterNextTerm rest)
    | none => scanToc (afterNextTerm (c :: cs))
termination_by l => l.length
decreasing_by
  · have h1 := matchAt_rest_lt _ _ _ _ hm
    have h2 := afterNextTerm_length_le rest
    simp only [List.length_cons] at *
    omega
  · have := afterNextTerm_cons_lt c cs
    simp only [List.length_cons] at *
    omega

/-- An entry of the table of contents. -/
structure TocEntry where
  level : Nat
  text : String
  href : String
deriving DecidableEq, Repr

/-- The JavaScript String trim: whitespace stripped from both ends. -/
def jsTrim (l : List Char) : List Char :=
  ((l.dropWhile isJsWhitespace).reverse.dropWhile isJsWhitespace).reverse

/-- A TOC entry from one regex match: the level, the trimmed capture
group, and the anchor href built from its slug. -/
def mkTocEntry (kg : Nat × List Char) : TocEntry :=
  { level := kg.1, text := ⟨jsTrim kg.2⟩, href := "#" ++ sluggify ⟨jsTrim kg.2⟩ }

/-- Embedding of getDocsTocs from src/lib/markdown.ts, applied to the
raw text of the already-resolved document: run the global multiline
regex scan and build one entry per match. -/
def getDocsTocs (rawMdx : String) : List TocEntry :=
  (scanToc rawMdx.data).map mkTocEntry

/-- The per-line reading of the TOC pattern, as the spec states it: a
line matches when it carries two to four leading hashes, then one
whitespace character, then a nonempty remainder, all within the
line. -/
def lineMatch (line : List Char) : Option (Nat × List Char) :=
  if 2 ≤ hashRun line ∧ hashRun line ≤ 4 then
    match line.drop (hashRun line) with
    | [] => none
    | c :: rest => if isJsWhitespace c && !rest.isEmpty then some (hashRun line, rest)
      else none
  else none

/-- The TOC entry a line contributes under the per-line reading. -/
def lineEntry (line : List Char) : Option TocEntry := (lineMatch line).map mkTocEntry

/-- Lines joined by newline separators into one raw text. -/
def joinLines : List (List Char) → List Char
  | [] => []
  | [l] => l
  | l :: ls => l ++ '\n' :: joinLines ls

lemma hashRun_append_newline : ∀ (l R : List Char), hashRun (l ++ '\n' :: R) = hashRun l
  | [], R => by simp [hashRun]
  | c :: cs, R => by
    rw [List.cons_append, hashRun, hashRun]
    by_cases h : c == '#'
    · rw [if_pos h, if_pos h, hashRun_append_newline cs R]
    · rw [if_neg h, if_neg h]

lemma takeWhile_all {p : Char → Bool} : ∀ l : List Char,
    (∀ c ∈ l, p c = true) → l.takeWhile p = l
  | [], _ => rfl
  | c :: cs, h => by
    rw [List.takeWhile_cons, if_pos (h c (List.mem_cons_self c cs)),
      takeWhile_all cs (fun d hd => h d (List.mem_cons_of_mem c hd))]

lemma takeWhile_append_term {p : Char → Bool} {x : Char} (hx : p x = false) :
    ∀ (l R : List Char), (∀ c ∈ l, p c = true) → (l ++ x :: R).takeWhile p = l
  | [], R, _ => by simp [List.takeWhile_cons, hx]
  | c :: cs, R, h => by
    rw [List.cons_append, List.takeWhile_cons, if_pos (h c (List.mem_cons_self c cs)),
      takeWhile_append_term hx cs R (fun d hd => h d (List.mem_cons_of_mem c hd))]

lemma afterNextTerm_append_newline : ∀ (l R : List Char),
    (∀ c ∈ l, isLineTerm c = false) → afterNextTerm (l ++ '\n' :: R) = R
  | [], R, _ => by simp [afterNextTerm, isLineTerm]
  | c :: cs, R, h => by
    rw [List.cons_append, afterNextTerm,
      if_neg (by simp [h c (List.mem_cons_self c cs)]),
      afterNextTerm_append_newline cs R (fun d hd => h d (List.mem_cons_of_mem c hd))]

lemma afterNextTerm_noterm : ∀ l : List Char,
    (∀ c ∈ l, isLineTerm c = false) → afterNextTerm l = []
  | [], _ => rfl
  | c :: cs, h => by
    rw [afterNextTerm, if_neg (by simp [h c (List.mem_cons_self c cs)]),
      afterNextTerm_noterm cs (fun d hd => h d (List.mem_cons_of_mem c hd))]

lemma matchAt_noterm (l : List Char) (hl : ∀ c ∈ l, isLineTerm c = false) :
    matchAt l = (lineMatch l).map (fun kg => (kg.1, kg.2, ([] : List Char))) := by
  unfold matchAt lineMatch
  by_cases hk : 2 ≤ hashRun l ∧ hashRun l ≤ 4
  · rw [if_pos hk, if_pos hk]
    cases hd : l.drop (hashRun l) with
    | nil => rw [matchTail]; rfl
    | cons c rest2 =>
      have hmem : ∀ d ∈ c :: rest2, d ∈ l := fun d hdm =>
        List.mem_of_mem_drop (hd ▸ hdm)
      have hrest2 : ∀ d ∈ rest2, (fun d => !isLineTerm d) d = true := by
        intro d hdm
        simp [hl d (hmem d (List.mem_cons_of_mem c hdm))]
      have htw : rest2.takeWhile (fun d => !isLineTerm d) = rest2 :=
        takeWhile_all rest2 hrest2
      rw [matchTail, htw]
      by_cases hw : isJsWhitespace c
      · rw [if_pos hw]
        by_cases hg : rest2.isEmpty
        · rw [if_pos hg]
          simp [hw, hg]
        · rw [if_neg hg]
          rw [List.drop_length]
          have hg2 : rest2.isEmpty = false := by simpa using hg
          simp [hw, hg2]
      · rw [if_neg hw]
        simp only [Bool.not_eq_true] at hw
        simp [hw]
  · rw [if_neg hk, if_neg hk]
    rfl

lemma scanToc_single (l : List Char) (hl : ∀ c ∈ l, isLineTerm c = false) :
    scanToc l = (match lineMatch l with
      | some kg => [kg]
      | none => []) := by
  cases hL : l with
  | nil => simp [scanToc, lineMatch, hashRun]
  | cons c cs =>
    rw [scanToc, ← hL, matchAt_noterm l hl]
    cases hlm : lineMatch l with
    | none =>
      simp only [Option.map_none]
      rw [hL, afterNextTerm_noterm (c :: cs) (hL ▸ hl)]
      simp [scanToc]
    | some kg =>
      simp only [Option.map_some]
      show (kg.1, kg.2) :: scanToc (afterNextTerm []) = _
      rw [afterNextTerm]
      simp [scanToc]

lemma scanToc_line_append (l R : List Char)
    (hl : ∀ c ∈ l, isLineTerm c = false)
    (hbare : ¬(hashRun l = l.length ∧ 2 ≤ hashRun l ∧ hashRun l ≤ 4)) :
    scanToc (l ++ '\n' :: R) = (match lineMatch l with
      | some kg => kg :: scanToc R
      | none => scanToc R) := by
  have hnil : l ++ '\n' :: R ≠ [] := by simp
  have hma : matchAt (l ++ '\n' :: R) = (lineMatch l).map (fun kg => (kg.1, kg.2, '\n' :: R)) := by
    unfold matchAt lineMatch
    rw [hashRun_append_newline l R]
    by_cases hk : 2 ≤ hashRun l ∧ hashRun l ≤ 4
    · rw [if_pos hk, if_pos hk,
        List.drop_append_of_le_length (hashRun_le_length l)]
      cases hd : l.drop (hashRun l) with
      | nil =>
        exfalso
        have h9 := congrArg List.length hd
        rw [List.length_drop, List.length_nil] at h9
        have h10 := hashRun_le_length l
        exact hbare ⟨by omega, hk⟩
      | cons c rest2 =>
        have hmem : ∀ d ∈ c :: rest2, d ∈ l := fun d hdm =>
          List.mem_of_mem_drop (hd ▸ hdm)
        have hrest2 : ∀ d ∈ rest2, (fun d => !isLineTerm d) d = true := by
          intro d hdm
          simp [hl d (hmem d (List.mem_cons_of_mem c hdm))]
        have htw : (rest2 ++ '\n' :: R).takeWhile (fun d => !isLineTerm d) = rest2 :=
          takeWhile_append_term (by simp [isLineTerm]) rest2 R hrest2
        rw [List.cons_append, matchTail, htw]
        by_cases hw : isJsWhitespace c
        · rw [if_pos hw]
          by_cases hg : rest2.isEmpty
          · rw [if_pos hg]
            simp [hw, hg]
          · rw [if_neg hg]
            rw [List.drop_left]
            have hg2 : rest2.isEmpty = false := by simpa using hg
            simp [hw, hg2]
        · rw [if_neg hw]
          simp only [Bool.not_eq_true] at hw
          simp [hw]
    · rw [if_neg hk, if_neg hk]
      rfl
  cases hJ : l ++ '\n' :: R with
  | nil => exact absurd hJ hnil
  | cons a as =>
    rw [scanToc, ← hJ, hma]
    cases hlm : lineMatch l with
    | none =>
      show scanToc (afterNextTerm (l ++ '\n' :: R)) = scanToc R
      rw [afterNextTerm_append_newline l R hl]
    | some kg =>
      simp only [Option.map_some]
      show (kg.1, kg.2) :: scanToc (afterNextTerm ('\n' :: R)) = _
      rw [afterNextTerm, if_pos (by simp [isLineTerm])]

lemma scanToc_cons_eq (c : Char) (cs : List Char) :
    scanToc (c :: cs) = (match matchAt (c :: cs) with
      | some (k, g2, rest) => (k, g2) :: scanToc (afterNextTerm rest)
      | none => scanToc (afterNextTerm (c :: cs))) := by
  rw [scanToc]
  split
  · next k g2 rest heq => rw [heq]
  · next heq => rw [heq]

lemma scanToc_joinLines : ∀ (lines : List (List Char)),
    (∀ l ∈ lines, ∀ c ∈ l, isLineTerm c = false) →
    (∀ l ∈ lines, ¬(hashRun l = l.length ∧ 2 ≤ hashRun l ∧ hashRun l ≤ 4)) →
    scanToc (joinLines lines) = lines.filterMap lineMatch
  | [], _, _ => by
    show scanToc [] = _
    rw [scanToc]
    rfl
  | [l], h1, _ => by
    show scanToc l = ([l].filterMap lineMatch)
    rw [scanToc_single l (h1 l (List.mem_cons_self l [])), List.filterMap_cons]
    cases hlm : lineMatch l with
    | none => simp
    | some kg => simp
  | l :: l2 :: ls, h1, h2 => by
    show scanToc (l ++ '\n' :: joinLines (l2 :: ls)) = _
    rw [scanToc_line_append l (joinLines (l2 :: ls))
        (h1 l (List.mem_cons_self l (l2 :: ls))) (h2 l (List.mem_cons_self l (l2 :: ls))),
      scanToc_joinLines (l2 :: ls)
        (fun x hx => h1 x (List.mem_cons_of_mem l hx))
        (fun x hx => h2 x (List.mem_cons_of_mem l hx))]
    cases hlm : lineMatch l with
    | none => simp [List.filterMap_cons, hlm]
    | some kg => simp [List.filterMap_cons, hlm]

/-- Claim C6 amended: on every text whose lines are terminator-free
and in which no line consists solely of two to four hash characters,
the TOC extraction yields exactly one entry per line matching the
heading pattern within the line, in source order, with the level the
hash count and the text the trimmed remainder; lines with a single
hash or five or more hashes yield no entry.  (A line of bare hashes
must be excluded: there the whitespace class of the pattern matches
the newline itself and the entry text is taken from the following
line.) -/
theorem getDocsTocs_per_line (lines : List (List Char))
    (hterm : ∀ l ∈ lines, ∀ c ∈ l, isLineTerm c = false)
    (hbare : ∀ l ∈ lines, ¬(hashRun l = l.length ∧ 2 ≤ hashRun l ∧ hashRun l ≤ 4)) :
    getDocsTocs ⟨joinLines lines⟩ = lines.filterMap lineEntry ∧
    (∀ line : List Char, hashRun line = 1 → lineEntry line = none) ∧
    (∀ line : List Char, 5 ≤ hashRun line → lineEntry line = none) := by
  refine ⟨?_, ?_, ?_⟩
  · show (scanToc (joinLines lines)).map mkTocEntry = _
    rw [scanToc_joinLines lines hterm hbare, List.map_filterMap]
    rfl
  · intro line h1
    unfold lineEntry lineMatch
    rw [h1, if_neg (by omega)]
    rfl
  · intro line h5
    unfold lineEntry lineMatch
    rw [if_neg (by omega)]
    rfl

/-- Witness for the amended Claim C6 on a concrete two-line document
plus the excluded heading levels. -/
theorem getDocsTocs_per_line_witness :
    getDocsTocs ⟨joinLines [("## Hi").data, ("foo").data]⟩ =
      ([("## Hi").data, ("foo").data]).filterMap lineEntry ∧
    lineEntry (("# one").data) = none ∧
    lineEntry (("##### five").data) = none :=
  ⟨(getDocsTocs_per_line [("## Hi").data, ("foo").data] (by decide) (by decide)).1,
   (getDocsTocs_per_line [] (by decide) (by decide)).2.1 (("# one").data) (by decide),
   (getDocsTocs_per_line [] (by decide) (by decide)).2.2 (("##### five").data) (by decide)⟩

/-- Claim C6 is false as stated: in the two-line document of a bare
hash-pair line followed by foo, neither line matches the heading
pattern within its line, yet the extraction emits an entry of level
two with text foo — the whitespace class of the pattern matches the
newline and the capture group is taken from the following line. -/
theorem getDocsTocs_cross_line_counterexample :
    ("##\nfoo" : String).data = joinLines [("##").data, ("foo").data] ∧
    lineEntry (("##").data) = none ∧
    lineEntry (("foo").data) = none ∧
    getDocsTocs "##\nfoo" = [{ level := 2, text := "foo", href := "#foo" }] := by
  refine ⟨by decide, by decide, by decide, ?_⟩
  have hd : ("##\nfoo" : String).data =
      '#' :: '#' :: '\n' :: 'f' :: 'o' :: 'o' :: [] := rfl
  have h1 : matchAt ('#' :: '#' :: '\n' :: 'f' :: 'o' :: 'o' :: []) =
      some (2, 'f' :: 'o' :: 'o' :: [], []) := by decide
  show (scanToc ("##\nfoo" : String).data).map mkTocEntry = _
  rw [hd, scanToc_cons_eq, h1]
  show ((2, 'f' :: 'o' :: 'o' :: []) :: scanToc (afterNextTerm [])).map mkTocEntry = _
  rw [afterNextTerm, scanToc]
  decide

/-- A node of the markdown structural tree produced by the parser:
a plain text node with its value, a heading with its children, or any
other node kind (root, paragraph, emphasis, inline code, link, ...)
with a type tag and its children. -/
inductive MdNode where
  | text : String → MdNode
  | heading : List MdNode → MdNode
  | other : String → List MdNode → MdNode

/-- The text of a heading node: the values of its direct children of
type text, joined; children of any other type are dropped. -/
def headingText (children : List MdNode) : String :=
  String.join (children.filterMap fun n =>
    match n with
    | MdNode.text v => some v
    | _ => none)

/-- The contribution of one heading node to the headings list: the
pair is pushed only when both text and id are truthy, that is,
nonempty strings. -/
def headingEntry (children : List MdNode) : List Heading :=
  let t := headingText children
  let i := headingId t
  if t ≠ "" ∧ i ≠ "" then [{ text := t, id := i }] else []

/-- Embedding of extractHeadings from the search-index script, over a
node list: visit every node in preorder and collect the heading
contributions. -/
def extractHeadingsList : List MdNode → List Heading
  | [] => []
  | MdNode.text _ :: rest => extractHeadingsList rest
  | MdNode.heading cs :: rest =>
    headingEntry cs ++ extractHeadingsList cs ++ extractHeadingsList rest
  | MdNode.other _ cs :: rest => extractHeadingsList cs ++ extractHeadingsList rest

/-- extractHeadings on a parsed tree. -/
def extractHeadings (t : MdNode) : List Heading := extractHeadingsList [t]

lemma extractHeadingsList_nonempty : ∀ (l : List MdNode) (h : Heading),
    h ∈ extractHeadingsList l → h.text ≠ "" ∧ h.id ≠ ""
  | [], h, hm => by rw [extractHeadingsList] at hm; exact absurd hm (by simp)
  | MdNode.text v :: rest, h, hm => by
    rw [extractHeadingsList] at hm
    exact extractHeadingsList_nonempty rest h hm
  | MdNode.heading cs :: rest, h, hm => by
    rw [extractHeadingsList] at hm
    rcases List.mem_append.mp hm with hm1 | hm2
    · rcases List.mem_append.mp hm1 with hm0 | hmc
      · unfold headingEntry at hm0
        by_cases hcond : headingText cs ≠ "" ∧ headingId (headingText cs) ≠ ""
        · rw [if_pos hcond] at hm0
          have : h = { text := headingText cs, id := headingId (headingText cs) } := by
            simpa using hm0
          rw [this]
          exact hcond
        · rw [if_neg hcond] at hm0
          exact absurd hm0 (by simp)
      · exact extractHeadingsList_nonempty cs h hmc
    · exact extractHeadingsList_nonempty rest h hm2
  | MdNode.other ty cs :: rest, h, hm => by
    rw [extractHeadingsList] at hm
    rcases List.mem_append.mp hm with hmc | hm2
    · exact extractHeadingsList_nonempty cs h hmc
    · exact extractHeadingsList_nonempty rest h hm2

/-- Claim C10: a heading whose direct children include no text node, or
whose concatenated direct text normalizes to an empty id, contributes
no entry, and every emitted heading has nonempty text and nonempty
id. -/
theorem extractHeadings_headings_nonempty :
    (∀ cs : List MdNode, (∀ n ∈ cs, ∀ v, n ≠ MdNode.text v) → headingEntry cs = []) ∧
    (∀ cs : List MdNode, headingId (headingText cs) = "" → headingEntry cs = []) ∧
    (∀ (t : MdNode) (h : Heading), h ∈ extractHeadings t → h.text ≠ "" ∧ h.id ≠ "") := by
  refine ⟨?_, ?_, ?_⟩
  · intro cs hno
    have htext : headingText cs = "" := by
      unfold headingText
      have : cs.filterMap (fun n =>
          match n with
          | MdNode.text v => some v
          | _ => none) = [] := by
        rw [List.filterMap_eq_nil_iff]
        intro n hn
        cases n with
        | text v => exact absurd rfl (hno _ hn v)
        | heading cs2 => rfl
        | other ty cs2 => rfl
      rw [this]
      rfl
    unfold headingEntry
    rw [if_neg]
    intro hcond
    exact hcond.1 htext
  · intro cs hid
    unfold headingEntry
    rw [if_neg]
    intro hcond
    exact hcond.2 hid
  · intro t h hm
    exact extractHeadingsList_nonempty [t] h hm

/-- Witness for Claim C10: a heading of pure emphasis children, a
heading whose text normalizes to an empty id, and an emitted heading
with its nonempty fields. -/
theorem extractHeadings_headings_nonempty_witness :
    headingEntry [MdNode.other "emphasis" [MdNode.text "hi"]] = [] ∧
    headingEntry [MdNode.text "!!!"] = [] ∧
    (Heading.mk "Hi" "hi" ∈ extractHeadings (MdNode.heading [MdNode.text "Hi"]) →
      ("Hi" : String) ≠ "" ∧ ("hi" : String) ≠ "") :=
  ⟨extractHeadings_headings_nonempty.1 [MdNode.other "emphasis" [MdNode.text "hi"]]
     (by rintro n hn v; simp at hn; subst hn; simp),
   extractHeadings_headings_nonempty.2.1 [MdNode.text "!!!"] (by decide),
   fun hm => extractHeadings_headings_nonempty.2.2
     (MdNode.heading [MdNode.text "Hi"]) (Heading.mk "Hi" "hi") hm⟩
